import Mathlib

/-!
# Verification of the intent-matching and response-resolution engine

Shallow embedding of `src/app.py` (a bilingual healthcare chatbot).

Modelling conventions:
* Python strings that undergo character-level processing are `List Char`;
  collection keys (never processed character-wise) stay `String`.
* Python dicts are association lists in insertion order (Python 3.7+ dicts
  iterate in insertion order); assignment to an existing key updates the
  value in place, otherwise appends.
* Python floats (`1.0`, `1.2`, `0.8`, thresholds `0.3`, `0.1`) are modelled
  exactly as rationals `ℚ`.
* Python sets of words are `Finset (List Char)`.
* External capabilities (the transformers QA pipeline, the GoogleTranslator,
  and `difflib.get_close_matches`) are oracle parameters; a raised exception
  is an `Except.error`.
* `str.lower` is modelled character-wise with `Char.toLower` (ASCII case
  mapping); the regex class `\s` is the set of ASCII whitespace characters.
-/

namespace HealthBot

/-- The two request languages (`'en'` / `'st'`). `lang` is forced into this
set by `chat` (`lang if lang in ('en','st') else 'en'`). -/
inductive Lang where
  | en
  | st
deriving DecidableEq, Repr

/-- The three source-type strings `'kb'`, `'glossary'`, `'medicine'` used in
`VOCAB` values and match results. -/
inductive SrcType where
  | kb
  | glossary
  | medicine
deriving DecidableEq, Repr

/-- The question-type strings `'general'`, `'examples'`, `'definition'`. -/
inductive QType where
  | general
  | examples
  | definition
deriving DecidableEq, Repr

/-- Characters matched by `[a-z0-9]` (the characters `normalize` keeps). -/
def isLowerAlnum (c : Char) : Bool :=
  ('a' ≤ c && c ≤ 'z') || ('0' ≤ c && c ≤ '9')

/-- Characters matched by the regex class `\s` (ASCII whitespace). -/
def isSpaceChar (c : Char) : Bool :=
  c = ' ' || c = '\t' || c = '\n' || c = '\x0d' || c = '\x0b' || c = '\x0c'

/-- Characters NOT matched by `[^a-z0-9\s]` in `normalize`'s first
substitution, i.e. the characters it keeps unchanged. -/
def isKept (c : Char) : Bool :=
  isLowerAlnum c || isSpaceChar c

mutual
/-- `re.sub(r"[^a-z0-9\s]+", ' ', text)`: each maximal run of characters
outside `[a-z0-9\s]` becomes a single space. -/
def replaceBadRuns : List Char → List Char
  | [] => []
  | c :: cs => if isKept c then c :: replaceBadRuns cs else ' ' :: skipBadRun cs
/-- Inside a run of replaced characters: drop until a kept character. -/
def skipBadRun : List Char → List Char
  | [] => []
  | c :: cs => if isKept c then c :: replaceBadRuns cs else skipBadRun cs
end

mutual
/-- `re.sub(r'\s+', ' ', text)`: each maximal whitespace run becomes one
space. -/
def collapseWs : List Char → List Char
  | [] => []
  | c :: cs => if isSpaceChar c then ' ' :: skipWsRun cs else c :: collapseWs cs
/-- Inside a whitespace run: drop until a non-whitespace character. -/
def skipWsRun : List Char → List Char
  | [] => []
  | c :: cs => if isSpaceChar c then skipWsRun cs else c :: collapseWs cs
end

/-- Remove trailing whitespace (the right half of `str.strip()`). -/
def dropTrailingWs : List Char → List Char
  | [] => []
  | c :: cs =>
    let r := dropTrailingWs cs
    if r.isEmpty then (if isSpaceChar c then [] else [c]) else c :: r

/-- `str.strip()`: remove leading and trailing whitespace. -/
def stripWs (l : List Char) : List Char :=
  dropTrailingWs (l.dropWhile fun c => isSpaceChar c)

/-- Core of `normalize` on a (non-null) string: lowercase, replace
non-alphanumeric runs by a space, collapse whitespace, strip. -/
def normChars (l : List Char) : List Char :=
  stripWs (collapseWs (replaceBadRuns (l.map Char.toLower)))

/-- `normalize(text)` from `src/app.py` lines 86–91; `text = text or ''`
turns a null (or empty) input into the empty string. -/
def normalize (text : Option (List Char)) : List Char :=
  normChars (text.getD [])

mutual
/-- Normal-form checker, position: at least one `[a-z0-9]` character of the
current word has been seen. -/
def nfAfterChar : List Char → Bool
  | [] => true
  | c :: cs => if isLowerAlnum c then nfAfterChar cs
               else if c = ' ' then nfAfterSpace cs else false
/-- Normal-form checker, position: just after a separating space (another
word must follow). -/
def nfAfterSpace : List Char → Bool
  | [] => false
  | c :: cs => if isLowerAlnum c then nfAfterChar cs else false
end

/-- The output format claimed for `normalize`: words of `[a-z0-9]` characters
separated by single spaces, no leading or trailing whitespace. -/
def isNF : List Char → Bool
  | [] => true
  | c :: cs => isLowerAlnum c && nfAfterChar cs

mutual
/-- Checker for `collapseWs` output: whitespace occurs only as the single
character `' '`, never twice in a row. Position: start or after non-space. -/
def csMain : List Char → Bool
  | [] => true
  | c :: cs => if c = ' ' then csSp cs else isLowerAlnum c && csMain cs
/-- Position: immediately after an emitted `' '`. -/
def csSp : List Char → Bool
  | [] => true
  | c :: cs => if c = ' ' then false else isLowerAlnum c && csMain cs
end

-- ### Lemmas about the normalization pipeline

theorem space_not_lowerAlnum {c : Char} (h : isSpaceChar c = true) :
    isLowerAlnum c = false := by
  simp only [isSpaceChar, Bool.or_eq_true, decide_eq_true_eq] at h
  rcases h with ((((h | h) | h) | h) | h) | h <;> subst h <;> decide

theorem isLowerAlnum_not_space {c : Char} (h : isLowerAlnum c = true) :
    isSpaceChar c = false := by
  cases hs : isSpaceChar c with
  | false => rfl
  | true => rw [space_not_lowerAlnum hs] at h; exact absurd h (by simp)

theorem isLowerAlnum_ne_space {c : Char} (h : isLowerAlnum c = true) : c ≠ ' ' := by
  intro hc; subst hc; exact absurd h (by decide)

theorem replaceBadRuns_all :
    ∀ l : List Char, (replaceBadRuns l).all isKept = true ∧
      (skipBadRun l).all isKept = true := by
  intro l
  induction l with
  | nil => exact ⟨by simp [replaceBadRuns], by simp [skipBadRun]⟩
  | cons a as ih =>
    refine ⟨?_, ?_⟩
    · rw [replaceBadRuns]
      cases ha : isKept a
      · simpa [ha, isKept, isSpaceChar] using ih.2
      · simpa [ha] using ih.1
    · rw [skipBadRun]
      cases ha : isKept a
      · simpa [ha] using ih.2
      · simpa [ha] using ih.1

theorem toLower_alnum {c : Char} (h : isLowerAlnum c = true) : c.toLower = c := by
  simp only [isLowerAlnum, Bool.or_eq_true, Bool.and_eq_true, decide_eq_true_eq] at h
  rw [Char.toLower, if_neg]
  rintro ⟨h1, h2⟩
  simp only [Char.le_def, UInt32.le_def, BitVec.le_def, Char.toNat, UInt32.toNat] at h h1 h2
  rcases h with ⟨ha, hb⟩ | ⟨ha, hb⟩
  · have ha' : (97 : Nat) ≤ c.val.toBitVec.toNat := ha
    have hb' : c.val.toBitVec.toNat ≤ 122 := hb
    omega
  · have ha' : (48 : Nat) ≤ c.val.toBitVec.toNat := ha
    have hb' : c.val.toBitVec.toNat ≤ 57 := hb
    omega

theorem toLower_space {c : Char} (h : isSpaceChar c = true) : c.toLower = c := by
  simp only [isSpaceChar, Bool.or_eq_true, decide_eq_true_eq] at h
  rcases h with ((((h | h) | h) | h) | h) | h <;> subst h <;> decide

theorem kept_not_space_alnum {c : Char} (hk : isKept c = true)
    (hs : isSpaceChar c = false) : isLowerAlnum c = true := by
  simp only [isKept, Bool.or_eq_true] at hk
  rcases hk with hk | hk
  · exact hk
  · rw [hk] at hs; exact absurd hs (by simp)

theorem ne_space_of_not_spaceChar {c : Char} (h : isSpaceChar c = false) : c ≠ ' ' := by
  intro hc; subst hc; exact absurd h (by decide)

-- Unfolding equations for the mutually recursive definitions.

@[simp] theorem replaceBadRuns_nil : replaceBadRuns [] = [] := by rw [replaceBadRuns]

@[simp] theorem replaceBadRuns_cons (c : Char) (cs : List Char) :
    replaceBadRuns (c :: cs) =
      if isKept c then c :: replaceBadRuns cs else ' ' :: skipBadRun cs := by
  rw [replaceBadRuns]

@[simp] theorem skipBadRun_nil : skipBadRun [] = [] := by rw [skipBadRun]

@[simp] theorem skipBadRun_cons (c : Char) (cs : List Char) :
    skipBadRun (c :: cs) =
      if isKept c then c :: replaceBadRuns cs else skipBadRun cs := by
  rw [skipBadRun]

@[simp] theorem collapseWs_nil : collapseWs [] = [] := by rw [collapseWs]

@[simp] theorem collapseWs_cons (c : Char) (cs : List Char) :
    collapseWs (c :: cs) =
      if isSpaceChar c then ' ' :: skipWsRun cs else c :: collapseWs cs := by
  rw [collapseWs]

@[simp] theorem skipWsRun_nil : skipWsRun [] = [] := by rw [skipWsRun]

@[simp] theorem skipWsRun_cons (c : Char) (cs : List Char) :
    skipWsRun (c :: cs) =
      if isSpaceChar c then skipWsRun cs else c :: collapseWs cs := by
  rw [skipWsRun]

@[simp] theorem nfAfterChar_nil : nfAfterChar [] = true := by rw [nfAfterChar]

@[simp] theorem nfAfterChar_cons (c : Char) (cs : List Char) :
    nfAfterChar (c :: cs) =
      if isLowerAlnum c then nfAfterChar cs
      else if c = ' ' then nfAfterSpace cs else false := by
  rw [nfAfterChar]

@[simp] theorem nfAfterSpace_nil : nfAfterSpace [] = false := by rw [nfAfterSpace]

@[simp] theorem nfAfterSpace_cons (c : Char) (cs : List Char) :
    nfAfterSpace (c :: cs) =
      if isLowerAlnum c then nfAfterChar cs else false := by
  rw [nfAfterSpace]

@[simp] theorem csMain_nil : csMain [] = true := by rw [csMain]

@[simp] theorem csMain_cons (c : Char) (cs : List Char) :
    csMain (c :: cs) = if c = ' ' then csSp cs else isLowerAlnum c && csMain cs := by
  rw [csMain]

@[simp] theorem csSp_nil : csSp [] = true := by rw [csSp]

@[simp] theorem csSp_cons (c : Char) (cs : List Char) :
    csSp (c :: cs) = if c = ' ' then false else isLowerAlnum c && csMain cs := by
  rw [csSp]

theorem collapseWs_cs :
    ∀ l : List Char, (l.all isKept = true → csMain (collapseWs l) = true) ∧
      (l.all isKept = true → csSp (skipWsRun l) = true) := by
  intro l
  induction l with
  | nil => exact ⟨fun _ => by simp, fun _ => by simp⟩
  | cons a as ih =>
    have tail : (a :: as).all isKept = true → as.all isKept = true := by
      simp only [List.all_cons, Bool.and_eq_true]; exact And.right
    have head : (a :: as).all isKept = true → isKept a = true := by
      simp only [List.all_cons, Bool.and_eq_true]; exact And.left
    refine ⟨fun hall => ?_, fun hall => ?_⟩
    · rw [collapseWs_cons]
      cases hs : isSpaceChar a
      · have halnum := kept_not_space_alnum (head hall) hs
        rw [if_neg (by simp), csMain_cons, if_neg (ne_space_of_not_spaceChar hs), halnum]
        simpa using ih.1 (tail hall)
      · rw [if_pos rfl, csMain_cons, if_pos rfl]
        exact ih.2 (tail hall)
    · rw [skipWsRun_cons]
      cases hs : isSpaceChar a
      · have halnum := kept_not_space_alnum (head hall) hs
        rw [if_neg (by simp), csSp_cons, if_neg (ne_space_of_not_spaceChar hs), halnum]
        simpa using ih.1 (tail hall)
      · rw [if_pos rfl]
        exact ih.2 (tail hall)

@[simp] theorem dropTrailingWs_nil : dropTrailingWs [] = [] := rfl

theorem dropTrailingWs_cons (c : Char) (cs : List Char) :
    dropTrailingWs (c :: cs) =
      if (dropTrailingWs cs).isEmpty then (if isSpaceChar c then [] else [c])
      else c :: dropTrailingWs cs := rfl

@[simp] theorem isNF_nil : isNF [] = true := rfl

@[simp] theorem isNF_cons (c : Char) (cs : List Char) :
    isNF (c :: cs) = (isLowerAlnum c && nfAfterChar cs) := rfl


theorem dtws_nf :
    ∀ l : List Char, (csMain l = true → nfAfterChar (dropTrailingWs l) = true) ∧
      (csSp l = true → (dropTrailingWs l = [] ∨
        ((dropTrailingWs l).isEmpty = false ∧ nfAfterSpace (dropTrailingWs l) = true))) := by
  intro l
  induction l with
  | nil => exact ⟨fun _ => by simp, fun _ => Or.inl rfl⟩
  | cons a as ih =>
    refine ⟨fun h => ?_, fun h => ?_⟩
    · rw [csMain_cons] at h
      by_cases ha : a = ' '
      · subst ha; rw [if_pos rfl] at h
        rcases ih.2 h with hnil | ⟨hne, hsp⟩
        · rw [dropTrailingWs_cons, hnil]
          simp [isSpaceChar]
        · rw [dropTrailingWs_cons, hne]
          simp only [Bool.false_eq_true, if_false, nfAfterChar_cons]
          simp only [if_neg (by decide : ¬ isLowerAlnum ' ' = true), if_pos rfl]
          exact hsp
      · rw [if_neg ha, Bool.and_eq_true] at h
        obtain ⟨ha', hcs⟩ := h
        have h1 := ih.1 hcs
        rw [dropTrailingWs_cons]
        cases hr : (dropTrailingWs as).isEmpty
        · simp only [Bool.false_eq_true, if_false, nfAfterChar_cons, if_pos ha']
          exact h1
        · simp [isLowerAlnum_not_space ha', ha']
    · rw [csSp_cons] at h
      by_cases ha : a = ' '
      · rw [if_pos ha] at h; exact absurd h (by simp)
      · rw [if_neg ha, Bool.and_eq_true] at h
        obtain ⟨ha', hcs⟩ := h
        have h1 := ih.1 hcs
        right
        rw [dropTrailingWs_cons]
        cases hr : (dropTrailingWs as).isEmpty
        · simp only [Bool.false_eq_true, if_false, nfAfterSpace_cons, if_pos ha']
          exact ⟨by simp, h1⟩
        · simp [isLowerAlnum_not_space ha', ha']

theorem dtws_head_nf {c : Char} {cs : List Char} (hc : isLowerAlnum c = true)
    (h : csMain cs = true) : isNF (dropTrailingWs (c :: cs)) = true := by
  have h1 := (dtws_nf cs).1 h
  rw [dropTrailingWs_cons]
  cases hr : (dropTrailingWs cs).isEmpty
  · simp [hc, h1]
  · simp [isLowerAlnum_not_space hc, hc]

theorem stripWs_nf : ∀ {l : List Char}, csMain l = true → isNF (stripWs l) = true := by
  intro l h
  cases l with
  | nil => simp [stripWs]
  | cons a as =>
    rw [csMain_cons] at h
    by_cases ha : a = ' '
    · subst ha; rw [if_pos rfl] at h
      cases as with
      | nil => decide
      | cons b bs =>
        rw [csSp_cons] at h
        by_cases hb : b = ' '
        · rw [if_pos hb] at h; exact absurd h (by simp)
        · rw [if_neg hb, Bool.and_eq_true] at h
          obtain ⟨hb', hcs⟩ := h
          rw [stripWs, List.dropWhile_cons_of_pos (by simp [isSpaceChar]),
            List.dropWhile_cons_of_neg (by simp [isLowerAlnum_not_space hb'])]
          exact dtws_head_nf hb' hcs
    · rw [if_neg ha, Bool.and_eq_true] at h
      obtain ⟨ha', hcs⟩ := h
      rw [stripWs, List.dropWhile_cons_of_neg (by simp [isLowerAlnum_not_space ha'])]
      exact dtws_head_nf ha' hcs

/-- Stage 1 of the idempotence argument: every `normChars` output is in the
normal form `isNF`. -/
theorem normChars_nf (l : List Char) : isNF (normChars l) = true :=
  stripWs_nf ((collapseWs_cs _).1 (replaceBadRuns_all _).1)

theorem nf_chars :
    ∀ l : List Char, (nfAfterChar l = true → ∀ c ∈ l, isLowerAlnum c = true ∨ c = ' ') ∧
      (nfAfterSpace l = true → ∀ c ∈ l, isLowerAlnum c = true ∨ c = ' ') := by
  intro l
  induction l with
  | nil => exact ⟨fun _ c hc => absurd hc (List.not_mem_nil c), fun _ c hc => absurd hc (List.not_mem_nil c)⟩
  | cons a as ih =>
    refine ⟨fun h c hc => ?_, fun h c hc => ?_⟩
    · rw [nfAfterChar_cons] at h
      rcases List.mem_cons.mp hc with rfl | hc'
      · by_cases hca : isLowerAlnum c = true
        · exact Or.inl hca
        · rw [if_neg hca] at h
          by_cases hsp : c = ' '
          · exact Or.inr hsp
          · rw [if_neg hsp] at h; exact absurd h (by simp)
      · by_cases hca : isLowerAlnum a = true
        · rw [if_pos hca] at h; exact ih.1 h c hc'
        · rw [if_neg hca] at h
          by_cases hsp : a = ' '
          · rw [if_pos hsp] at h; exact ih.2 h c hc'
          · rw [if_neg hsp] at h; exact absurd h (by simp)
    · rw [nfAfterSpace_cons] at h
      by_cases hca : isLowerAlnum a = true
      · rw [if_pos hca] at h
        rcases List.mem_cons.mp hc with rfl | hc'
        · exact Or.inl hca
        · exact ih.1 h c hc'
      · rw [if_neg hca] at h; exact absurd h (by simp)

theorem isNF_chars {l : List Char} (h : isNF l = true) :
    ∀ c ∈ l, isLowerAlnum c = true ∨ c = ' ' := by
  cases l with
  | nil => exact fun c hc => absurd hc (List.not_mem_nil c)
  | cons a as =>
    rw [isNF_cons, Bool.and_eq_true] at h
    intro c hc
    rcases List.mem_cons.mp hc with rfl | hc'
    · exact Or.inl h.1
    · exact (nf_chars as).1 h.2 c hc'

theorem map_toLower_id {l : List Char}
    (h : ∀ c ∈ l, isLowerAlnum c = true ∨ c = ' ') : l.map Char.toLower = l := by
  induction l with
  | nil => rfl
  | cons a as ih =>
    have ha : a.toLower = a := by
      rcases h a (by simp) with ha | rfl
      · exact toLower_alnum ha
      · decide
    simp only [List.map_cons, ha, ih (fun c hc => h c (List.mem_cons_of_mem a hc))]

theorem nf_all_kept {l : List Char}
    (h : ∀ c ∈ l, isLowerAlnum c = true ∨ c = ' ') : l.all isKept = true := by
  rw [List.all_eq_true]
  intro c hc
  rcases h c hc with hc' | rfl
  · simp [isKept, hc']
  · decide

theorem replaceBadRuns_id {l : List Char} (h : l.all isKept = true) :
    replaceBadRuns l = l := by
  induction l with
  | nil => simp
  | cons a as ih =>
    rw [List.all_cons, Bool.and_eq_true] at h
    rw [replaceBadRuns_cons, if_pos h.1, ih h.2]

theorem collapseWs_nf_id :
    ∀ l : List Char, (nfAfterChar l = true → collapseWs l = l) ∧
      (nfAfterSpace l = true → skipWsRun l = l) := by
  intro l
  induction l with
  | nil => exact ⟨fun _ => rfl, fun _ => rfl⟩
  | cons a as ih =>
    refine ⟨fun h => ?_, fun h => ?_⟩
    · rw [nfAfterChar_cons] at h
      by_cases hca : isLowerAlnum a = true
      · rw [if_pos hca] at h
        rw [collapseWs_cons, if_neg (by simp [isLowerAlnum_not_space hca]), ih.1 h]
      · rw [if_neg hca] at h
        by_cases hsp : a = ' '
        · subst hsp; rw [if_pos rfl] at h
          rw [collapseWs_cons, if_pos (by decide), ih.2 h]
        · rw [if_neg hsp] at h; exact absurd h (by simp)
    · rw [nfAfterSpace_cons] at h
      by_cases hca : isLowerAlnum a = true
      · rw [if_pos hca] at h
        rw [skipWsRun_cons, if_neg (by simp [isLowerAlnum_not_space hca]), ih.1 h]
      · rw [if_neg hca] at h; exact absurd h (by simp)

theorem collapseWs_id {l : List Char} (h : isNF l = true) : collapseWs l = l := by
  cases l with
  | nil => rfl
  | cons a as =>
    rw [isNF_cons, Bool.and_eq_true] at h
    rw [collapseWs_cons, if_neg (by simp [isLowerAlnum_not_space h.1]),
      (collapseWs_nf_id as).1 h.2]

theorem dtws_nf_id :
    ∀ l : List Char, (nfAfterChar l = true → dropTrailingWs l = l) ∧
      (nfAfterSpace l = true → dropTrailingWs l = l ∧ l ≠ []) := by
  intro l
  induction l with
  | nil => exact ⟨fun _ => rfl, fun h => absurd h (by simp)⟩
  | cons a as ih =>
    refine ⟨fun h => ?_, fun h => ?_⟩
    · rw [nfAfterChar_cons] at h
      by_cases hca : isLowerAlnum a = true
      · rw [if_pos hca] at h
        have has := ih.1 h
        rw [dropTrailingWs_cons, has]
        cases hr : as.isEmpty
        · simp
        · rw [List.isEmpty_iff] at hr
          subst hr
          simp [isLowerAlnum_not_space hca]
      · rw [if_neg hca] at h
        by_cases hsp : a = ' '
        · subst hsp; rw [if_pos rfl] at h
          obtain ⟨has, hne⟩ := ih.2 h
          rw [dropTrailingWs_cons, has, if_neg (by simp [List.isEmpty_iff, hne])]
        · rw [if_neg hsp] at h; exact absurd h (by simp)
    · rw [nfAfterSpace_cons] at h
      by_cases hca : isLowerAlnum a = true
      · rw [if_pos hca] at h
        have has := ih.1 h
        refine ⟨?_, by simp⟩
        rw [dropTrailingWs_cons, has]
        cases hr : as.isEmpty
        · simp
        · rw [List.isEmpty_iff] at hr
          subst hr
          simp [isLowerAlnum_not_space hca]
      · rw [if_neg hca] at h; exact absurd h (by simp)

theorem stripWs_id {l : List Char} (h : isNF l = true) : stripWs l = l := by
  cases l with
  | nil => rfl
  | cons a as =>
    rw [isNF_cons, Bool.and_eq_true] at h
    rw [stripWs, List.dropWhile_cons_of_neg (by simp [isLowerAlnum_not_space h.1])]
    rw [dropTrailingWs_cons, (dtws_nf_id as).1 h.2]
    cases hr : as.isEmpty
    · simp
    · rw [List.isEmpty_iff] at hr
      subst hr
      simp [isLowerAlnum_not_space h.1]

/-- Stage 2 of the idempotence argument: `normChars` is the identity on
normal-form strings. -/
theorem normChars_id {l : List Char} (h : isNF l = true) : normChars l = l := by
  rw [normChars, map_toLower_id (isNF_chars h),
    replaceBadRuns_id (nf_all_kept (isNF_chars h)), collapseWs_id h, stripWs_id h]

/-- **C4.** For every input `x` (including null/empty, modelled as `none`),
`normalize (normalize x) = normalize x`; the output consists only of
lowercase alphanumeric characters separated by single spaces with no leading
or trailing whitespace (checker `isNF`); and empty or null input normalizes
to the empty string. -/
theorem normalize_idempotent (x : Option (List Char)) :
    normalize (some (normalize x)) = normalize x ∧
    isNF (normalize x) = true ∧
    normalize none = [] ∧ normalize (some []) = [] := by
  refine ⟨?_, ?_, rfl, rfl⟩
  · show normChars (normalize x) = normalize x
    exact normChars_id (normChars_nf _)
  · exact normChars_nf _

-- ## Knowledge collections and the vocabulary index

/-- One JSON knowledge entry: optional `'en'`/`'st'` localized content and,
for KB entries, the `'tags'` list (`item.get('tags', [])`, default empty). -/
structure KEntry where
  tags : List (List Char) := []
  en : Option (List Char) := none
  st : Option (List Char) := none
deriving DecidableEq, Repr

/-- `entry.get(lang)` for `lang` in `{'en','st'}`. -/
def KEntry.get (e : KEntry) : Lang → Option (List Char)
  | .en => e.en
  | .st => e.st

/-- A knowledge collection (`KB`, `GLOSSARY`, `MEDICINES`): a JSON object in
insertion order with unique keys. -/
abbrev Collection := List (String × KEntry)

/-- Python dict membership/lookup `COLLECTION[key]` (`None` when absent). -/
def colFind : Collection → String → Option KEntry
  | [], _ => none
  | p :: ps, key => if p.1 == key then some p.2 else colFind ps key

/-- A `VOCAB` value: `(source type, key, weight)`. -/
abbrev VEntry := SrcType × String × ℚ

/-- Dict lookup in `VOCAB`. -/
def vocabLookup : List (List Char × VEntry) → List Char → Option VEntry
  | [], _ => none
  | p :: ps, t => if p.1 == t then some p.2 else vocabLookup ps t

/-- Python dict assignment `VOCAB[t] = v`: update in place when the key is
present, append otherwise (preserving insertion/iteration order). -/
def dictInsert (d : List (List Char × VEntry)) (t : List Char) (v : VEntry) :
    List (List Char × VEntry) :=
  if d.any (fun p => p.1 == t) then
    d.map (fun p => if p.1 == t then (t, v) else p)
  else d ++ [(t, v)]

/-- `str.lower()` on a collection key. -/
def lowerStr (s : String) : List Char := s.data.map Char.toLower

/-- The hard-coded medication synonym list (`src/app.py` line 78). -/
def medication_terms : List (List Char) :=
  ["arv".toList, "art".toList, "hiv drug".toList, "antiretroviral".toList,
   "medication".toList, "medicine".toList, "drug".toList, "pill".toList,
   "tablet".toList]

/-- The value inserted for absent synonym terms:
`('medicine', 'arv_examples', 0.8)`. -/
def synonymEntry : VEntry := (SrcType.medicine, "arv_examples", 4/5)

/-- Stage 1 insertions: `VOCAB[tag.lower()] = ('kb', key, 1.0)` for every tag
of every KB entry, in iteration order. -/
def kbTagPairs (kb : Collection) : List (List Char × VEntry) :=
  kb.flatMap fun p => p.2.tags.map fun tg =>
    (tg.map Char.toLower, (SrcType.kb, p.1, (1 : ℚ)))

/-- Stage 2 insertions: `VOCAB[term.lower()] = ('glossary', term, 1.0)`. -/
def glossPairs (g : Collection) : List (List Char × VEntry) :=
  g.map fun p => (lowerStr p.1, (SrcType.glossary, p.1, (1 : ℚ)))

/-- Stage 3 insertions: `VOCAB[med.lower()] = ('medicine', med, 1.2)`. -/
def medPairs (m : Collection) : List (List Char × VEntry) :=
  m.map fun p => (lowerStr p.1, (SrcType.medicine, p.1, (6/5 : ℚ)))

/-- Run a sequence of unconditional dict assignments. -/
def insertAll (d : List (List Char × VEntry))
    (ps : List (List Char × VEntry)) : List (List Char × VEntry) :=
  ps.foldl (fun d p => dictInsert d p.1 p.2) d

/-- `VOCAB` as built at start-up (`src/app.py` lines 62–81): KB tags, then
glossary keys, then medicine keys — unconditional assignments — then the
medication synonyms, each inserted only `if term not in VOCAB`. -/
def buildVocab (kb glossary medicines : Collection) :
    List (List Char × VEntry) :=
  medication_terms.foldl
    (fun d t => if d.any (fun p => p.1 == t) then d else dictInsert d t synonymEntry)
    (insertAll (insertAll (insertAll [] (kbTagPairs kb)) (glossPairs glossary))
      (medPairs medicines))

/-- The value of the LAST pair with a given key in an insertion sequence. -/
def lastValue : List (List Char × VEntry) → List Char → Option VEntry
  | [], _ => none
  | p :: ps, t =>
    match lastValue ps t with
    | some v => some v
    | none => if p.1 == t then some p.2 else none

/-- The amended specification of the vocabulary mapping: the value of a term
is that of the last insertion producing it among the three unconditional
collection stages (last-writer-wins there); a term never produced by those
stages maps to the synonym entry exactly when it is in the fixed medication
synonym list (which never overwrites). -/
def vocabSpec (kb glossary medicines : Collection) (t : List Char) :
    Option VEntry :=
  match lastValue (kbTagPairs kb ++ glossPairs glossary ++ medPairs medicines) t with
  | some v => some v
  | none => if t ∈ medication_terms then some synonymEntry else none

@[simp] theorem vocabLookup_nil (t : List Char) : vocabLookup [] t = none := rfl

@[simp] theorem vocabLookup_cons (p : List Char × VEntry) (ps : List (List Char × VEntry))
    (t : List Char) :
    vocabLookup (p :: ps) t = if p.1 == t then some p.2 else vocabLookup ps t := rfl

theorem lookup_none_of_any_false {d : List (List Char × VEntry)} {t : List Char}
    (h : d.any (fun p => p.1 == t) = false) : vocabLookup d t = none := by
  induction d with
  | nil => rfl
  | cons q qs ih =>
    rw [List.any_cons, Bool.or_eq_false_iff] at h
    rw [vocabLookup_cons, if_neg (by simp [h.1]), ih h.2]

theorem mapUpd_lookup_ne {t s : List Char} {v : VEntry} (hst : s ≠ t) :
    ∀ d : List (List Char × VEntry),
      vocabLookup (d.map (fun p => if p.1 == t then (t, v) else p)) s =
        vocabLookup d s := by
  intro d
  induction d with
  | nil => rfl
  | cons q qs ih =>
    simp only [List.map_cons]
    by_cases hq : (q.1 == t) = true
    · have hq' : q.1 = t := by simpa using hq
      rw [if_pos hq, vocabLookup_cons, vocabLookup_cons,
        if_neg (by simp; exact fun h => hst h.symm),
        if_neg (by simp [hq']; exact fun h => hst h.symm)]
      exact ih
    · rw [if_neg hq, vocabLookup_cons, vocabLookup_cons]
      cases hqs : (q.1 == s)
      · simpa using ih
      · simp

theorem mapUpd_lookup_self {t : List Char} {v : VEntry} :
    ∀ d : List (List Char × VEntry), d.any (fun p => p.1 == t) = true →
      vocabLookup (d.map (fun p => if p.1 == t then (t, v) else p)) t = some v := by
  intro d hany
  induction d with
  | nil => simp at hany
  | cons q qs ih =>
    rw [List.any_cons, Bool.or_eq_true] at hany
    simp only [List.map_cons]
    by_cases hq : (q.1 == t) = true
    · rw [if_pos hq, vocabLookup_cons, if_pos (by simp)]
    · rw [if_neg hq, vocabLookup_cons, if_neg hq]
      exact ih (hany.resolve_left hq)

theorem lookup_append_single {t s : List Char} {v : VEntry} :
    ∀ d : List (List Char × VEntry),
      vocabLookup (d ++ [(t, v)]) s =
        match vocabLookup d s with
        | some w => some w
        | none => if t == s then some v else none := by
  intro d
  induction d with
  | nil => rfl
  | cons q qs ih =>
    rw [List.cons_append, vocabLookup_cons, vocabLookup_cons]
    cases hqs : (q.1 == s)
    · simpa using ih
    · simp

theorem vocabLookup_dictInsert (d : List (List Char × VEntry)) (t : List Char)
    (v : VEntry) (s : List Char) :
    vocabLookup (dictInsert d t v) s = if s = t then some v else vocabLookup d s := by
  rw [dictInsert]
  cases hany : d.any (fun p => p.1 == t)
  · rw [if_neg (by simp), lookup_append_single]
    by_cases hst : s = t
    · subst hst
      simp [lookup_none_of_any_false hany]
    · rw [if_neg hst]
      cases h : vocabLookup d s
      · simp only [h]
        rw [if_neg (by simp; exact fun hh => hst hh.symm)]
      · simp only [h]
  · rw [if_pos rfl]
    by_cases hst : s = t
    · subst hst
      rw [if_pos rfl]
      exact mapUpd_lookup_self d hany
    · rw [if_neg hst]
      exact mapUpd_lookup_ne hst d

@[simp] theorem lastValue_nil (t : List Char) : lastValue [] t = none := rfl

@[simp] theorem lastValue_cons (p : List Char × VEntry) (ps : List (List Char × VEntry))
    (t : List Char) :
    lastValue (p :: ps) t =
      match lastValue ps t with
      | some v => some v
      | none => if p.1 == t then some p.2 else none := rfl

@[simp] theorem insertAll_nil (d : List (List Char × VEntry)) : insertAll d [] = d := rfl

@[simp] theorem insertAll_cons (d : List (List Char × VEntry)) (p : List Char × VEntry)
    (ps : List (List Char × VEntry)) :
    insertAll d (p :: ps) = insertAll (dictInsert d p.1 p.2) ps := rfl

theorem vocabLookup_insertAll :
    ∀ (ps : List (List Char × VEntry)) (d : List (List Char × VEntry)) (t : List Char),
      vocabLookup (insertAll d ps) t =
        match lastValue ps t with
        | some v => some v
        | none => vocabLookup d t := by
  intro ps
  induction ps with
  | nil => intro d t; rfl
  | cons p ps ih =>
    intro d t
    rw [insertAll_cons, ih, lastValue_cons]
    cases hl : lastValue ps t
    · rw [vocabLookup_dictInsert]
      by_cases hpt : (p.1 == t) = true
      · have hpt' : p.1 = t := by simpa using hpt
        rw [if_pos hpt, if_pos hpt'.symm]
      · have hpt' : ¬ t = p.1 := fun h => hpt (by simp [h])
        rw [if_neg hpt, if_neg hpt']
    · rfl

theorem lookup_isSome_of_any {d : List (List Char × VEntry)} {t : List Char}
    (h : d.any (fun p => p.1 == t) = true) : (vocabLookup d t).isSome = true := by
  induction d with
  | nil => simp at h
  | cons q qs ih =>
    rw [List.any_cons, Bool.or_eq_true] at h
    rw [vocabLookup_cons]
    by_cases hq : (q.1 == t) = true
    · rw [if_pos hq]; rfl
    · rw [if_neg hq]; exact ih (h.resolve_left hq)

theorem vocabLookup_synStage :
    ∀ (ts : List (List Char)) (d : List (List Char × VEntry)) (t : List Char),
      vocabLookup (ts.foldl
        (fun d t => if d.any (fun p => p.1 == t) then d else dictInsert d t synonymEntry)
        d) t =
      match vocabLookup d t with
      | some v => some v
      | none => if t ∈ ts then some synonymEntry else none := by
  intro ts
  induction ts with
  | nil =>
    intro d t
    rw [List.foldl_nil]
    cases h : vocabLookup d t
    · exact (if_neg (List.not_mem_nil t)).symm
    · rfl
  | cons a as ih =>
    intro d t
    rw [List.foldl_cons, ih]
    cases hat : d.any (fun p => p.1 == a)
    · rw [if_neg (by simp), vocabLookup_dictInsert]
      by_cases hta : t = a
      · subst hta
        rw [if_pos rfl, lookup_none_of_any_false hat]
        simp
      · rw [if_neg hta]
        cases h : vocabLookup d t
        · simp [h, hta]
        · simp [h]
    · rw [if_pos rfl]
      cases h : vocabLookup d t
      · by_cases hta : t = a
        · subst hta
          have := lookup_isSome_of_any hat
          rw [h] at this
          simp at this
        · simp [h, hta]
      · simp [h]

/-- **C1 (amended).** The vocabulary index is a pure function of the three
collections (hence deterministic), and for every term its value is given by
`vocabSpec`: last-writer-wins across the three unconditional collection
stages (Facts tags, then Glossary, then Medicines), while the hard-coded
synonym stage only fills in terms that are not yet present and never
overwrites an earlier stage. -/
theorem buildVocab_lookup (kb glossary medicines : Collection) (t : List Char) :
    vocabLookup (buildVocab kb glossary medicines) t =
      vocabSpec kb glossary medicines t := by
  rw [buildVocab, vocabSpec]
  have hcomp :
      insertAll (insertAll (insertAll [] (kbTagPairs kb)) (glossPairs glossary))
        (medPairs medicines) =
      insertAll []
        (kbTagPairs kb ++ glossPairs glossary ++ medPairs medicines) := by
    simp [insertAll, List.foldl_append]
  rw [vocabLookup_synStage, hcomp, vocabLookup_insertAll]
  cases hl : lastValue (kbTagPairs kb ++ glossPairs glossary ++ medPairs medicines) t
  · simp
  · simp

/-- A one-entry glossary whose key collides with the medication synonym
list. -/
def glossArv : Collection := [("arv", {})]

/-- **C1 (counterexample).** `'arv'` is produced both by the Glossary stage
and by the later synonym stage, yet the later insertion does NOT overwrite
the earlier one: the glossary value survives, refuting last-writer-wins
"across all four stages". -/
theorem buildVocab_synonym_collision_kept :
    "arv".toList ∈ medication_terms ∧
    (vocabLookup (buildVocab [] glossArv []) "arv".toList).map
        (fun v => (v.1, v.2.1)) = some (SrcType.glossary, "arv") ∧
    (some (SrcType.glossary, "arv") : Option (SrcType × String)) ≠
      some (SrcType.medicine, "arv_examples") := by
  refine ⟨by decide, ?_, by decide⟩
  rw [buildVocab_lookup]
  rw [vocabSpec]
  rfl

-- ## Special medication patterns (src/app.py lines 42–59, 93–104)

/-- A special pattern's target: the info dict carries either a
`'medicine_key'` or a `'glossary_key'`. -/
inductive PTarget where
  | medicineKey (k : String)
  | glossaryKey (k : String)
deriving DecidableEq, Repr

/-- One entry of `SPECIAL_MEDICATION_PATTERNS`. -/
structure SpecialPattern where
  name : String
  patterns : List (List Char)
  target : PTarget
  priority : Nat
deriving DecidableEq, Repr

/-- `SPECIAL_MEDICATION_PATTERNS`, in declaration (= dict iteration) order. -/
def SPECIAL_MEDICATION_PATTERNS : List SpecialPattern :=
  [⟨"arv_examples",
    ["examples of arv".toList, "arv examples".toList, "list of arv".toList,
     "arv drugs".toList, "hiv drugs list".toList, "arv medications".toList,
     "types of arv".toList, "arv list".toList, "hiv medications".toList,
     "give me examples of arv".toList],
    .medicineKey "arv_examples", 10⟩,
   ⟨"arv_definition",
    ["what is arv".toList, "arv keng".toList, "arv meaning".toList,
     "define arv".toList, "arv ke eng".toList, "art keng".toList,
     "art ke eng".toList],
    .glossaryKey "art", 9⟩,
   ⟨"hiv_definition",
    ["what is hiv".toList, "hiv keng".toList, "hiv meaning".toList,
     "define hiv".toList, "hiv ke eng".toList],
    .glossaryKey "hiv", 9⟩]

/-- Python `p in s` on strings: `p` occurs as a contiguous substring. -/
def isSubstr (p : List Char) : List Char → Bool
  | [] => p.isEmpty
  | c :: hs => p.isPrefixOf (c :: hs) || isSubstr p hs

/-- The tuple returned on a pattern hit: `('medicine', medicine_key, pattern,
priority)` when the info dict has a `'medicine_key'`, else `('glossary',
glossary_key, pattern, priority)`. -/
def mkHit (pat : SpecialPattern) (p : List Char) : SrcType × String × List Char × Nat :=
  match pat.target with
  | .medicineKey k => (SrcType.medicine, k, p, pat.priority)
  | .glossaryKey k => (SrcType.glossary, k, p, pat.priority)

/-- Scan one pattern's trigger phrases in declaration order; first phrase
found as a substring of the normalized input wins. -/
def patternHit (clean : List Char) (pat : SpecialPattern) :
    Option (SrcType × String × List Char × Nat) :=
  pat.patterns.findSome? fun p =>
    if isSubstr p clean then some (mkHit pat p) else none

/-- `detect_special_medication_patterns(text)` (lines 93–104): normalize,
then scan patterns in declaration order. -/
def detect_special_medication_patterns (text : List Char) :
    Option (SrcType × String × List Char × Nat) :=
  SPECIAL_MEDICATION_PATTERNS.findSome? (patternHit (normChars text))

-- ## The cascading matcher (src/app.py lines 106–161)

/-- The domain synonym list of cascade step 4 and of the last-resort check
(lines 130 and 307, identical lists). -/
def domainWords : List (List Char) :=
  ["arv".toList, "art".toList, "hiv drug".toList, "antiretroviral".toList]

/-- The enumerating words of cascade step 4 (line 131). -/
def enumWordsStep4 : List (List Char) :=
  ["example".toList, "list".toList, "type".toList, "name".toList]

/-- The enumerating words of the last-resort check in `chat` (line 308);
note `'name'` is absent here. -/
def enumWordsLastResort : List (List Char) :=
  ["example".toList, "list".toList, "type".toList]

/-- Cascade step 4 (lines 129–134): medication-specific queries. -/
def step4Decision (clean : List Char) :
    Option (SrcType × String × List Char × QType) :=
  if domainWords.any (fun w => isSubstr w clean) then
    if enumWordsStep4.any (fun w => isSubstr w clean) then
      some (SrcType.medicine, "arv_examples", "arv examples".toList, QType.examples)
    else
      some (SrcType.glossary, "art", "art".toList, QType.definition)
  else none

/-- The domain-keyword last resort inside `chat` (lines 303–311): the routed
`(key, question_type)` pair, `none` when no domain synonym occurs. -/
def lastResortDecision (clean : List Char) : Option (String × QType) :=
  if domainWords.any (fun w => isSubstr w clean) then
    if enumWordsLastResort.any (fun w => isSubstr w clean) then
      some ("arv_examples", QType.examples)
    else
      some ("art", QType.definition)
  else none

/-- `str.split()`: split on whitespace runs, dropping empty tokens. -/
def splitWsAux : List Char → List Char → List (List Char)
  | [], acc => if acc.isEmpty then [] else [acc.reverse]
  | c :: cs, acc =>
    if isSpaceChar c then
      if acc.isEmpty then splitWsAux cs [] else acc.reverse :: splitWsAux cs []
    else splitWsAux cs (c :: acc)

def splitWs (l : List Char) : List (List Char) := splitWsAux l []

/-- The word-overlap score of one vocabulary item (line 146):
`len(common_words) / max(len(query_words), 1) * weight`. -/
def overlapScore (queryWords : Finset (List Char)) (it : List Char × VEntry) : ℚ :=
  (((queryWords ∩ (splitWs it.1).toFinset).card : ℚ) /
    (max queryWords.card 1 : ℚ)) * it.2.2.2

/-- One iteration of the word-overlap loop (lines 141–149): compute the
common-word set; when non-empty, score it and keep it only on a strictly
greater score than the best so far. -/
def step5Upd (queryWords : Finset (List Char))
    (acc : Option (SrcType × String × List Char) × ℚ)
    (it : List Char × VEntry) : Option (SrcType × String × List Char) × ℚ :=
  if queryWords ∩ (splitWs it.1).toFinset ≠ ∅ then
    if acc.2 < overlapScore queryWords it then
      (some (it.2.1, it.2.2.1, it.1), overlapScore queryWords it)
    else acc
  else acc

/-- The word-overlap loop's final `(best_match, best_score)` state. -/
def step5Best (vocab : List (List Char × VEntry)) (queryWords : Finset (List Char)) :
    Option (SrcType × String × List Char) × ℚ :=
  vocab.foldl (step5Upd queryWords) (none, 0)

/-- A match-cascade result `(typ, key, matched, question_type)`. -/
structure MatchRes where
  typ : Option SrcType
  key : Option String
  matched : Option (List Char)
  question_type : QType
deriving DecidableEq, Repr

/-- Cascade step 5 (lines 136–152): accept the best word-overlap match only
when its score strictly exceeds `0.3`. -/
def step5 (vocab : List (List Char × VEntry)) (clean : List Char) : Option MatchRes :=
  if (3/10 : ℚ) < (step5Best vocab (splitWs clean).toFinset).2 then
    (step5Best vocab (splitWs clean).toFinset).1.map fun b =>
      ⟨some b.1, some b.2.1, some b.2.2, QType.general⟩
  else none

/-- Oracle for `difflib.get_close_matches(clean, all_terms, n=1, cutoff=0.4)`:
given the term list and the query, the single best fuzzy match, if any. -/
def FuzzyOracle := List (List Char) → List Char → Option (List Char)

/-- Cascade step 6 (lines 154–159): fuzzy matching. The source indexes
`VOCAB[matches[0]]`; `difflib` only returns members of the given list, which
we model by the dict lookup. -/
def fuzzyStage (fuzzy : FuzzyOracle) (vocab : List (List Char × VEntry))
    (clean : List Char) : MatchRes :=
  match fuzzy (vocab.map (fun p => p.1)) clean with
  | some m =>
    match vocabLookup vocab m with
    | some v => ⟨some v.1, some v.2.1, some m, QType.general⟩
    | none => ⟨none, none, none, QType.general⟩
  | none => ⟨none, none, none, QType.general⟩

/-- `advanced_topic_matching(user_text)` (lines 106–161), parameterized by
the vocabulary and the fuzzy-matching oracle. -/
def advanced_topic_matching (fuzzy : FuzzyOracle)
    (vocab : List (List Char × VEntry)) (user_text : List Char) : MatchRes :=
  if user_text.isEmpty || (stripWs user_text).isEmpty then
    ⟨none, none, none, QType.general⟩
  else
    let clean := normChars user_text
    match detect_special_medication_patterns user_text with
    | some (typ, key, matched, _priority) =>
      ⟨some typ, some key, some matched,
        if isSubstr "examples".toList matched then QType.examples else QType.definition⟩
    | none =>
      match vocab.find? (fun it => it.1 == clean) with
      | some it => ⟨some it.2.1, some it.2.2.1, some it.1, QType.general⟩
      | none =>
        match vocab.find? (fun it => decide (2 < it.1.length) && isSubstr it.1 clean) with
        | some it => ⟨some it.2.1, some it.2.2.1, some it.1, QType.general⟩
        | none =>
          match step4Decision clean with
          | some (typ, key, matched, qt) => ⟨some typ, some key, some matched, qt⟩
          | none =>
            match step5 vocab clean with
            | some r => r
            | none => fuzzyStage fuzzy vocab clean

-- ### Lemmas about the special-pattern stage

theorem isSubstr_nil {p : List Char} (h : p ≠ []) : isSubstr p [] = false := by
  cases p with
  | nil => exact absurd rfl h
  | cons a as => rfl

theorem allSpace_skipWs {l : List Char} (h : ∀ c ∈ l, isSpaceChar c = true) :
    skipWsRun l = [] := by
  induction l with
  | nil => simp
  | cons a as ih =>
    rw [skipWsRun_cons, if_pos (h a (by simp))]
    exact ih fun c hc => h c (by simp [hc])

theorem allSpace_strip_collapse {l : List Char} (h : ∀ c ∈ l, isSpaceChar c = true) :
    stripWs (collapseWs l) = [] := by
  cases l with
  | nil => rfl
  | cons a as =>
    rw [collapseWs_cons, if_pos (h a (by simp)),
      allSpace_skipWs fun c hc => h c (by simp [hc])]
    decide

theorem dtws_nil_allSpace :
    ∀ {r : List Char}, dropTrailingWs r = [] → ∀ c ∈ r, isSpaceChar c = true := by
  intro r
  induction r with
  | nil => intro _ c hc; exact absurd hc (List.not_mem_nil c)
  | cons a as ih =>
    intro h c hc
    rw [dropTrailingWs_cons] at h
    cases hr : (dropTrailingWs as).isEmpty
    · rw [hr] at h
      simp at h
    · rw [hr] at h
      have ha : isSpaceChar a = true := by
        by_contra hna
        rw [if_pos rfl, if_neg hna] at h
        exact absurd h (by simp)
      rcases List.mem_cons.mp hc with rfl | hc'
      · exact ha
      · exact ih (List.isEmpty_iff.mp hr) c hc'

theorem strip_nil_allSpace {l : List Char} (h : stripWs l = []) :
    ∀ c ∈ l, isSpaceChar c = true := by
  intro c hc
  rw [stripWs] at h
  have hsplit := List.takeWhile_append_dropWhile (p := fun c => isSpaceChar c) (l := l)
  rw [← hsplit] at hc
  rcases List.mem_append.mp hc with hc1 | hc2
  · exact List.mem_takeWhile_imp hc1
  · exact dtws_nil_allSpace h c hc2

theorem map_toLower_allSpace : ∀ {l : List Char}, (∀ c ∈ l, isSpaceChar c = true) →
    l.map Char.toLower = l := by
  intro l
  induction l with
  | nil => intro _; rfl
  | cons a as ih =>
    intro hall
    rw [List.map_cons, toLower_space (hall a (by simp)),
      ih fun c hc => hall c (by simp [hc])]

theorem normChars_nil_of_strip_nil {l : List Char} (h : stripWs l = []) :
    normChars l = [] := by
  have hall := strip_nil_allSpace h
  rw [normChars, map_toLower_allSpace hall,
    replaceBadRuns_id (List.all_eq_true.mpr fun c hc => by simp [isKept, hall c hc])]
  exact allSpace_strip_collapse hall

theorem mkHit_phrase (pat : SpecialPattern) (p : List Char) :
    (mkHit pat p).2.2.1 = p := by
  cases ht : pat.target <;> simp [mkHit, ht]

theorem detect_mem {text : List Char} {r : SrcType × String × List Char × Nat}
    (h : detect_special_medication_patterns text = some r) :
    ∃ pat, pat ∈ SPECIAL_MEDICATION_PATTERNS ∧ ∃ p, p ∈ pat.patterns ∧
      isSubstr p (normChars text) = true ∧ r = mkHit pat p := by
  obtain ⟨pat, hpat, hhit⟩ := List.exists_of_findSome?_eq_some h
  obtain ⟨p, hp, hif⟩ := List.exists_of_findSome?_eq_some hhit
  by_cases hin : isSubstr p (normChars text) = true
  · rw [if_pos hin] at hif
    exact ⟨pat, hpat, p, hp, hin, (Option.some_inj.mp hif).symm⟩
  · rw [if_neg hin] at hif
    cases hif

theorem table_phrases_nonempty :
    ∀ pat ∈ SPECIAL_MEDICATION_PATTERNS, ∀ p ∈ pat.patterns, p ≠ [] := by decide

theorem detect_clean_nonempty {text : List Char} {r : SrcType × String × List Char × Nat}
    (h : detect_special_medication_patterns text = some r) : normChars text ≠ [] := by
  obtain ⟨pat, hpat, p, hp, hin, _⟩ := detect_mem h
  intro hnil
  rw [hnil, isSubstr_nil (table_phrases_nonempty pat hpat p hp)] at hin
  exact absurd hin (by simp)

theorem detect_text_valid {text : List Char} {r : SrcType × String × List Char × Nat}
    (h : detect_special_medication_patterns text = some r) :
    (text.isEmpty || (stripWs text).isEmpty) = false := by
  have hne := detect_clean_nonempty h
  rw [Bool.or_eq_false_iff]
  constructor
  · cases htext : text with
    | nil => exact absurd rfl (by rw [htext] at hne; exact hne)
    | cons a as => rfl
  · cases hs : stripWs text with
    | nil => exact absurd (normChars_nil_of_strip_nil hs) hne
    | cons a as => simp

theorem advanced_on_special {fuzzy : FuzzyOracle} {vocab : List (List Char × VEntry)}
    {text : List Char} {r : SrcType × String × List Char × Nat}
    (h : detect_special_medication_patterns text = some r) :
    advanced_topic_matching fuzzy vocab text =
      ⟨some r.1, some r.2.1, some r.2.2.1,
        if isSubstr "examples".toList r.2.2.1 then QType.examples
        else QType.definition⟩ := by
  obtain ⟨t, k, p, pr⟩ := r
  rw [advanced_topic_matching, if_neg (by rw [detect_text_valid h]; simp), h]

/-- **C6.** If any special-pattern trigger phrase occurs in the normalized
input — i.e. the declaration-order scan `detect_special_medication_patterns`
(first pattern, first phrase, first substring hit wins) returns a hit — then
the cascading matcher returns exactly that hit's `(sourceType, key, phrase)`
for EVERY vocabulary and fuzzy oracle: no exact, substring, overlap or fuzzy
match can override it. -/
theorem special_pattern_priority (fuzzy : FuzzyOracle)
    (vocab : List (List Char × VEntry)) (text : List Char)
    (r : SrcType × String × List Char × Nat)
    (h : detect_special_medication_patterns text = some r) :
    advanced_topic_matching fuzzy vocab text =
      ⟨some r.1, some r.2.1, some r.2.2.1,
        if isSubstr "examples".toList r.2.2.1 then QType.examples
        else QType.definition⟩ :=
  advanced_on_special h

/-- Witness for C6: on "what is arv" the special pattern wins even though the
vocabulary contains an exact match for the whole query. -/
theorem special_pattern_priority_witness :
    advanced_topic_matching (fun _ _ => none)
        [("what is arv".toList, (SrcType.kb, "x", (1 : ℚ)))] "what is arv".toList =
      ⟨some SrcType.glossary, some "art", some "what is arv".toList,
        QType.definition⟩ := by
  have h := special_pattern_priority (fun _ _ => none)
    [("what is arv".toList, (SrcType.kb, "x", (1 : ℚ)))] "what is arv".toList
    (SrcType.glossary, "art", "what is arv".toList, 9) (by decide)
  rw [if_neg (by decide)] at h
  exact h

theorem glossary_hits_no_examples :
    ∀ pat ∈ SPECIAL_MEDICATION_PATTERNS, ∀ p ∈ pat.patterns,
      (mkHit pat p).1 = SrcType.glossary →
        isSubstr "examples".toList p = false := by decide

/-- **C7.** For every special-pattern hit: when the hit's target is a
Medicine key, the matcher's question kind is `examples` exactly when the
matched phrase contains the substring "examples", else `definition`; every
Glossary-targeted hit is classified `definition` (no glossary trigger phrase
in the declared table contains "examples"). -/
theorem special_pattern_classification (fuzzy : FuzzyOracle)
    (vocab : List (List Char × VEntry)) (text : List Char)
    (t : SrcType) (k : String) (p : List Char) (pr : Nat)
    (h : detect_special_medication_patterns text = some (t, k, p, pr)) :
    (t = SrcType.medicine →
      (advanced_topic_matching fuzzy vocab text).question_type =
        (if isSubstr "examples".toList p then QType.examples
         else QType.definition)) ∧
    (t = SrcType.glossary →
      (advanced_topic_matching fuzzy vocab text).question_type =
        QType.definition) := by
  have ha := @advanced_on_special fuzzy vocab text (t, k, p, pr) h
  refine ⟨fun _ => by rw [ha], fun hg => ?_⟩
  rw [ha]
  obtain ⟨pat, hpat, p', hp', hin, hr⟩ := detect_mem h
  have hpp : p = p' := by
    have := congrArg (fun x => x.2.2.1) hr
    simpa [mkHit_phrase] using this
  have hglos : (mkHit pat p').1 = SrcType.glossary := by
    have := congrArg (fun x => x.1) hr
    simp at this
    rw [← this, hg]
  have hno := glossary_hits_no_examples pat hpat p' hp' hglos
  have hno' : isSubstr ['e', 'x', 'a', 'm', 'p', 'l', 'e', 's'] p' = false := by
    simpa using hno
  rw [hpp]
  simp [hno']

/-- Witness for C7: "what is hiv" hits the glossary-targeted `hiv` pattern
and is classified `definition`. -/
theorem special_pattern_classification_witness :
    (advanced_topic_matching (fun _ _ => none) [] "what is hiv".toList).question_type =
      QType.definition :=
  (special_pattern_classification (fun _ _ => none) [] "what is hiv".toList
    SrcType.glossary "hiv" "what is hiv".toList 9 (by decide)).2 rfl

-- ### C2: cascade step 4 vs. the domain-keyword last resort

/-- **C2 (counterexample).** On the normalized text "arv name", cascade
step 4 routes to the medicine examples key (since `'name'` is one of its
enumerating words), but the last resort in `chat` routes to the glossary
definition key (its enumerating list lacks `'name'`): the two tests are NOT
the same. -/
theorem domain_enum_divergence :
    step4Decision (normChars "arv name".toList) =
      some (SrcType.medicine, "arv_examples", "arv examples".toList, QType.examples) ∧
    lastResortDecision (normChars "arv name".toList) =
      some ("art", QType.definition) ∧
    ("arv_examples" : String) ≠ "art" := by
  refine ⟨by decide, by decide, by decide⟩

/-- **C2 (amended).** Both the cascade step 4 and the last resort accept
exactly the texts containing a domain synonym, and a last-resort examples
routing is always also a step-4 examples routing; but the enumerating tests
differ: they disagree (step 4 routes to examples, the last resort to the
definition key) exactly when the text contains a domain synonym and an
enumerating word of step 4 (`example`, `list`, `type`, `name`) but none of
the last resort's (`example`, `list`, `type`) — i.e. only via `name`. -/
theorem domain_last_resort_relation (clean : List Char) :
    ((step4Decision clean).isSome = (lastResortDecision clean).isSome) ∧
    ((step4Decision clean).isSome = true ↔
      domainWords.any (fun w => isSubstr w clean) = true) ∧
    (lastResortDecision clean = some ("arv_examples", QType.examples) →
      step4Decision clean =
        some (SrcType.medicine, "arv_examples", "arv examples".toList,
          QType.examples)) ∧
    ((step4Decision clean =
        some (SrcType.medicine, "arv_examples", "arv examples".toList,
          QType.examples) ∧
      lastResortDecision clean = some ("art", QType.definition)) ↔
      (domainWords.any (fun w => isSubstr w clean) = true ∧
       enumWordsStep4.any (fun w => isSubstr w clean) = true ∧
       enumWordsLastResort.any (fun w => isSubstr w clean) = false)) := by
  cases hd : domainWords.any (fun w => isSubstr w clean)
  · simp [step4Decision, lastResortDecision, hd]
  · cases he4 : enumWordsStep4.any (fun w => isSubstr w clean)
    · have heLR : enumWordsLastResort.any (fun w => isSubstr w clean) = false := by
        revert he4
        simp [enumWordsStep4, enumWordsLastResort]
        tauto
      simp [step4Decision, lastResortDecision, hd, he4, heLR]
    · cases heLR : enumWordsLastResort.any (fun w => isSubstr w clean)
      · simp [step4Decision, lastResortDecision, hd, he4, heLR]
      · simp [step4Decision, lastResortDecision, hd, he4, heLR]

-- ### C5: the word-overlap stage

/-- The mathematical maximum of the overlap scores (floored at the loop's
initial `best_score = 0`). -/
def maxScore (queryWords : Finset (List Char)) :
    List (List Char × VEntry) → ℚ
  | [] => 0
  | it :: rest => max (overlapScore queryWords it) (maxScore queryWords rest)

@[simp] theorem maxScore_nil (qW : Finset (List Char)) : maxScore qW [] = 0 := rfl

@[simp] theorem maxScore_cons (qW : Finset (List Char)) (it : List Char × VEntry)
    (rest : List (List Char × VEntry)) :
    maxScore qW (it :: rest) = max (overlapScore qW it) (maxScore qW rest) := rfl

theorem maxScore_nonneg (qW : Finset (List Char)) :
    ∀ l : List (List Char × VEntry), 0 ≤ maxScore qW l := by
  intro l
  induction l with
  | nil => exact le_refl 0
  | cons it rest ih => exact le_max_of_le_right ih

theorem overlapScore_le_maxScore (qW : Finset (List Char)) {x : List Char × VEntry} :
    ∀ {l : List (List Char × VEntry)}, x ∈ l → overlapScore qW x ≤ maxScore qW l := by
  intro l
  induction l with
  | nil => intro h; exact absurd h (List.not_mem_nil x)
  | cons it rest ih =>
    intro h
    rcases List.mem_cons.mp h with rfl | h'
    · exact le_max_left _ _
    · exact le_max_of_le_right (ih h')

theorem overlapScore_empty_common {qW : Finset (List Char)} {it : List Char × VEntry}
    (h : qW ∩ (splitWs it.1).toFinset = ∅) : overlapScore qW it = 0 := by
  simp [overlapScore, h]

theorem step5_fold_spec (qW : Finset (List Char)) :
    ∀ (l : List (List Char × VEntry)) (acc : Option (SrcType × String × List Char) × ℚ),
      0 ≤ acc.2 →
      (l.foldl (step5Upd qW) acc).2 = max acc.2 (maxScore qW l) ∧
      (l.foldl (step5Upd qW) acc = acc ∨
        ∃ l₁ it l₂, l = l₁ ++ it :: l₂ ∧
          (l.foldl (step5Upd qW) acc).1 = some (it.2.1, it.2.2.1, it.1) ∧
          (l.foldl (step5Upd qW) acc).2 = overlapScore qW it ∧
          acc.2 < overlapScore qW it ∧
          (∀ x ∈ l₁, overlapScore qW x < overlapScore qW it) ∧
          (∀ x ∈ l₂, overlapScore qW x ≤ overlapScore qW it)) := by
  intro l
  induction l with
  | nil =>
    intro acc hacc
    exact ⟨by simpa using (max_eq_left hacc).symm, Or.inl rfl⟩
  | cons it rest ih =>
    intro acc hacc
    rw [List.foldl_cons]
    by_cases hc : qW ∩ (splitWs it.1).toFinset ≠ ∅
    · by_cases hlt : acc.2 < overlapScore qW it
      · have hstep : step5Upd qW acc it =
            (some (it.2.1, it.2.2.1, it.1), overlapScore qW it) := by
          rw [step5Upd, if_pos hc, if_pos hlt]
        have hnn : (0 : ℚ) ≤ overlapScore qW it := le_of_lt (lt_of_le_of_lt hacc hlt)
        obtain ⟨ihs, ihd⟩ := ih (some (it.2.1, it.2.2.1, it.1), overlapScore qW it)
          (by simpa using hnn)
        refine ⟨?_, ?_⟩
        · rw [hstep, ihs, maxScore_cons]
          have h1 : acc.2 ≤ max (overlapScore qW it) (maxScore qW rest) :=
            le_trans (le_of_lt hlt) (le_max_left _ _)
          exact (max_eq_right h1).symm
        · rcases ihd with heq | ⟨l₁, x, l₂, hsplit, h1, h2, h3, h4, h5⟩
          · refine Or.inr ⟨[], it, rest, rfl, ?_, ?_, hlt, fun y hy => absurd hy (List.not_mem_nil y), ?_⟩
            · rw [hstep, heq]
            · rw [hstep, heq]
            · intro y hy
              have hym := overlapScore_le_maxScore qW hy
              have hmax : maxScore qW rest ≤ overlapScore qW it := by
                have h2 := ihs
                rw [heq] at h2
                simp only at h2
                by_contra hcon
                push_neg at hcon
                rw [max_eq_right (le_of_lt hcon)] at h2
                exact absurd h2 (ne_of_lt hcon)
              exact le_trans hym hmax
          · refine Or.inr ⟨it :: l₁, x, l₂, by rw [hsplit, List.cons_append], ?_, ?_, lt_trans hlt ?_, ?_, h5⟩
            · rw [hstep]; exact h1
            · rw [hstep]; exact h2
            · simpa using h3
            · intro y hy
              rcases List.mem_cons.mp hy with rfl | hy'
              · simpa using h3
              · exact h4 y hy'
      · have hstep : step5Upd qW acc it = acc := by
          rw [step5Upd, if_pos hc, if_neg hlt]
        have hle : overlapScore qW it ≤ acc.2 := not_lt.mp hlt
        obtain ⟨ihs, ihd⟩ := ih acc hacc
        refine ⟨?_, ?_⟩
        · rw [hstep, ihs, maxScore_cons, ← max_assoc, max_eq_left hle]
        · rcases ihd with heq | ⟨l₁, x, l₂, hsplit, h1, h2, h3, h4, h5⟩
          · exact Or.inl (by rw [hstep]; exact heq)
          · refine Or.inr ⟨it :: l₁, x, l₂, by rw [hsplit, List.cons_append], ?_, ?_, h3, ?_, h5⟩
            · rw [hstep]; exact h1
            · rw [hstep]; exact h2
            · intro y hy
              rcases List.mem_cons.mp hy with rfl | hy'
              · exact lt_of_le_of_lt hle h3
              · exact h4 y hy'
    · have hstep : step5Upd qW acc it = acc := by
        rw [step5Upd, if_neg hc]
      have hz : overlapScore qW it = 0 := overlapScore_empty_common (not_not.mp hc)
      have hle : overlapScore qW it ≤ acc.2 := by rw [hz]; exact hacc
      obtain ⟨ihs, ihd⟩ := ih acc hacc
      refine ⟨?_, ?_⟩
      · rw [hstep, ihs, maxScore_cons, ← max_assoc, max_eq_left hle]
      · rcases ihd with heq | ⟨l₁, x, l₂, hsplit, h1, h2, h3, h4, h5⟩
        · exact Or.inl (by rw [hstep]; exact heq)
        · refine Or.inr ⟨it :: l₁, x, l₂, by rw [hsplit, List.cons_append], ?_, ?_, h3, ?_, h5⟩
          · rw [hstep]; exact h1
          · rw [hstep]; exact h2
          · intro y hy
            rcases List.mem_cons.mp hy with rfl | hy'
            · exact lt_of_le_of_lt hle h3
            · exact h4 y hy'

theorem step5Best_eq (vocab : List (List Char × VEntry)) (qW : Finset (List Char)) :
    step5Best vocab qW = vocab.foldl (step5Upd qW) (none, 0) := rfl

/-- **C5.** In the word-overlap stage: the tracked `best_score` equals the
true maximum of the scores; the strict greater-than update makes the
FIRST-encountered item among equal maxima win (every earlier item scores
strictly below the winner, every later one at most equal); and the stage
accepts exactly when the best score strictly exceeds `0.3` — in particular a
best score of exactly `3/10` yields no match (and `0.31 > 0.3` would be
accepted, by the equivalence). -/
theorem word_overlap_strict (vocab : List (List Char × VEntry)) (clean : List Char) :
    ((step5Best vocab (splitWs clean).toFinset).2 =
      maxScore (splitWs clean).toFinset vocab) ∧
    (0 < (step5Best vocab (splitWs clean).toFinset).2 →
      ∃ l₁ it l₂, vocab = l₁ ++ it :: l₂ ∧
        (step5Best vocab (splitWs clean).toFinset).1 =
          some (it.2.1, it.2.2.1, it.1) ∧
        overlapScore (splitWs clean).toFinset it =
          (step5Best vocab (splitWs clean).toFinset).2 ∧
        (∀ x ∈ l₁, overlapScore (splitWs clean).toFinset x <
          (step5Best vocab (splitWs clean).toFinset).2) ∧
        (∀ x ∈ l₂, overlapScore (splitWs clean).toFinset x ≤
          (step5Best vocab (splitWs clean).toFinset).2)) ∧
    ((step5 vocab clean).isSome = true ↔
      (3/10 : ℚ) < (step5Best vocab (splitWs clean).toFinset).2) ∧
    ((step5Best vocab (splitWs clean).toFinset).2 = 3/10 →
      step5 vocab clean = none) := by
  obtain ⟨hs, hd⟩ :=
    step5_fold_spec ((splitWs clean).toFinset) vocab (none, 0) (le_refl 0)
  have hbest2 : (step5Best vocab (splitWs clean).toFinset).2 =
      maxScore (splitWs clean).toFinset vocab := by
    rw [step5Best_eq, hs]
    simpa using max_eq_right (maxScore_nonneg _ vocab)
  have hb : 0 < (step5Best vocab (splitWs clean).toFinset).2 →
      ∃ l₁ it l₂, vocab = l₁ ++ it :: l₂ ∧
        (step5Best vocab (splitWs clean).toFinset).1 =
          some (it.2.1, it.2.2.1, it.1) ∧
        overlapScore (splitWs clean).toFinset it =
          (step5Best vocab (splitWs clean).toFinset).2 ∧
        (∀ x ∈ l₁, overlapScore (splitWs clean).toFinset x <
          (step5Best vocab (splitWs clean).toFinset).2) ∧
        (∀ x ∈ l₂, overlapScore (splitWs clean).toFinset x ≤
          (step5Best vocab (splitWs clean).toFinset).2) := by
    intro hpos
    rcases hd with heq | ⟨l₁, it, l₂, hsplit, h1, h2, _h3, h4, h5⟩
    · rw [step5Best_eq, heq] at hpos
      exact absurd hpos (lt_irrefl 0)
    · refine ⟨l₁, it, l₂, hsplit, ?_, ?_, ?_, ?_⟩
      · rw [step5Best_eq]; exact h1
      · rw [step5Best_eq]; exact h2.symm
      · intro x hx
        rw [step5Best_eq, h2]; exact h4 x hx
      · intro x hx
        rw [step5Best_eq, h2]; exact h5 x hx
  refine ⟨hbest2, hb, ⟨?_, ?_⟩, ?_⟩
  · intro hsome
    by_contra hnot
    rw [step5, if_neg hnot] at hsome
    exact absurd hsome (by simp)
  · intro hgt
    obtain ⟨l₁, it, l₂, _, h1, _, _, _⟩ := hb (lt_trans (by norm_num) hgt)
    rw [step5, if_pos hgt, h1]
    rfl
  · intro heq30
    rw [step5, if_neg (by rw [heq30]; exact lt_irrefl _)]

/-- Witness for C5: a single-term vocabulary and a four-word query whose
best overlap score is exactly `1/4 * 1.2 = 0.3`; the stage rejects it. -/
theorem word_overlap_strict_witness :
    step5 [("hiv".toList, (SrcType.medicine, "hiv", (6/5 : ℚ)))]
      "a b c hiv".toList = none ∧
    (step5Best [("hiv".toList, (SrcType.medicine, "hiv", (6/5 : ℚ)))]
      (splitWs "a b c hiv".toList).toFinset).2 = 3/10 := by
  have hcard1 : ((splitWs "a b c hiv".toList).toFinset ∩
      (splitWs ("hiv".toList, (SrcType.medicine, "hiv", (6/5 : ℚ))).1).toFinset).card
        = 1 := by decide
  have hcard2 : (splitWs "a b c hiv".toList).toFinset.card = 4 := by decide
  have hscore : overlapScore (splitWs "a b c hiv".toList).toFinset
      ("hiv".toList, (SrcType.medicine, "hiv", (6/5 : ℚ))) = 3/10 := by
    rw [overlapScore, hcard1, hcard2]
    norm_num
  have hbest : (step5Best [("hiv".toList, (SrcType.medicine, "hiv", (6/5 : ℚ)))]
      (splitWs "a b c hiv".toList).toFinset).2 = 3/10 := by
    rw [step5Best_eq, List.foldl_cons, List.foldl_nil, step5Upd,
      if_pos (by decide), if_pos (by rw [hscore]; norm_num)]
    exact hscore
  exact ⟨(word_overlap_strict _ _).2.2.2 hbest, hbest⟩

-- ## Response resolver (src/app.py lines 166–187)

/-- Python truthiness of an optional string: `None` and `''` are falsy. -/
def truthyL : Option (List Char) → Bool
  | none => false
  | some s => !s.isEmpty

/-- Python `a or b` on optional strings. -/
def pyOr (a b : Option (List Char)) : Option (List Char) :=
  if truthyL a then a else b

/-- `entry.get(lang) or entry.get('en')`. -/
def contentFor (it : KEntry) (lang : Lang) : Option (List Char) :=
  pyOr (it.get lang) it.en

/-- One `if key in C: content = ...; if content: return content` block of
`generate_targeted_response`: the localized-or-English content when the key
is present and that content is truthy, else nothing. -/
def tryCollection (c : Collection) (key : String) (lang : Lang) :
    Option (List Char) :=
  match colFind c key with
  | some it => if truthyL (contentFor it lang) then contentFor it lang else none
  | none => none

/-- `generate_targeted_response(key, question_type, lang)` (lines 166–187):
check KB, then Medicines, then Glossary; the `question_type` parameter is
accepted but never used, exactly as in the source. -/
def generate_targeted_response (kb glossary medicines : Collection)
    (key : String) (question_type : QType) (lang : Lang) : Option (List Char) :=
  match tryCollection kb key lang with
  | some c => some c
  | none =>
    match tryCollection medicines key lang with
    | some c => some c
    | none =>
      match tryCollection glossary key lang with
      | some c => some c
      | none => none

/-- The ordered-precedence reading of the resolver (amended claim): the
first collection in the fixed order Facts → Medicines → Glossary whose
entry for the key has truthy requested-or-English content wins. -/
def resolveSpec (kb glossary medicines : Collection) (key : String)
    (lang : Lang) : Option (List Char) :=
  [kb, medicines, glossary].findSome? fun c => tryCollection c key lang

/-- **C3 (amended).** The resolver equals the ordered-precedence
specification, and in particular whenever the Facts (KB) collection holds
the key WITH truthy content for the requested-or-English language, its
content is returned — Medicines and Glossary are never consulted then. -/
theorem resolver_precedence (kb glossary medicines : Collection) (key : String)
    (question_type : QType) (lang : Lang) :
    generate_targeted_response kb glossary medicines key question_type lang =
      resolveSpec kb glossary medicines key lang ∧
    (∀ it, colFind kb key = some it → truthyL (contentFor it lang) = true →
      generate_targeted_response kb glossary medicines key question_type lang =
        contentFor it lang) := by
  constructor
  · rw [generate_targeted_response, resolveSpec]
    cases h1 : tryCollection kb key lang
    · cases h2 : tryCollection medicines key lang
      · cases h3 : tryCollection glossary key lang <;>
          simp [List.findSome?_cons, h1, h2, h3]
      · simp [List.findSome?_cons, h1, h2]
    · simp [List.findSome?_cons, h1]
  · intro it hfind htruthy
    have h1 : tryCollection kb key lang = contentFor it lang := by
      rw [tryCollection, hfind]
      exact if_pos htruthy
    cases hco : contentFor it lang with
    | none => rw [hco, truthyL] at htruthy; exact absurd htruthy (by simp)
    | some x =>
      rw [generate_targeted_response, h1, hco]

/-- A Facts collection whose only entry has empty English content. -/
def kbEmptyContent : Collection := [("k", ⟨[], some [], none⟩)]

/-- A Glossary collection holding the same key with real content. -/
def glossK : Collection := [("k", ⟨[], some "gdef".toList, none⟩)]

/-- **C3 (counterexample).** The key `"k"` is present in BOTH Facts and
Glossary with different content, yet the resolver returns the Glossary
content (the Facts entry's content is the empty string, which the source's
truthiness check skips) — refuting "the first collection containing that
key wins / never the Glossary content". -/
theorem resolver_returns_glossary_over_facts :
    colFind kbEmptyContent "k" ≠ none ∧
    colFind glossK "k" ≠ none ∧
    colFind kbEmptyContent "k" ≠ colFind glossK "k" ∧
    generate_targeted_response kbEmptyContent glossK [] "k" QType.general Lang.en
      = some "gdef".toList := by
  refine ⟨by decide, by decide, by decide, by decide⟩

-- ## Language heuristic and translation helpers (lines 233–253)

/-- The fixed Sesotho stop-word set of `is_sesotho` (line 234). -/
def sesotho_words : List (List Char) :=
  ["ke".toList, "ha".toList, "hona".toList, "lefu".toList, "joang".toList,
   "tse".toList, "tsa".toList, "mali".toList, "ea".toList, "eng".toList,
   "ho".toList, "le".toList, "ka".toList, "lumela".toList, "ntate".toList,
   "me".toList, "ena".toList, "keng".toList]

/-- `is_sesotho(text)` (lines 233–237): at least one word of the normalized
text lies in the stop-word set. -/
def is_sesotho (text : List Char) : Bool :=
  decide (1 ≤ ((splitWs (normChars text)).toFinset ∩ sesotho_words.toFinset).card)

/-- The language-detection fragment of `chat` (lines 276–278): flip `'en'`
to `'st'` when the heuristic fires; `'st'` is never flipped. -/
def detectLang (lang : Lang) (text : List Char) : Lang :=
  if lang == Lang.en && is_sesotho text then Lang.st else lang

/-- Direction of a `GoogleTranslator` call. -/
inductive TrDir where
  | toEnglish
  | toSesotho
deriving DecidableEq

/-- Oracle for the external translator; `Except.error` models a raised
exception. -/
def TrOracle := TrDir → List Char → Except Unit (List Char)

/-- `translate_to_english(text)` (lines 239–245): only texts longer than 3
characters after stripping are sent out; any failure passes the text
through unchanged. -/
def translate_to_english (tr : TrOracle) (text : List Char) : List Char :=
  if 3 < (stripWs text).length then
    match tr TrDir.toEnglish text with
    | Except.ok r => r
    | Except.error _ => text
  else text

/-- `translate_to_sesotho(text)` (lines 247–253). -/
def translate_to_sesotho (tr : TrOracle) (text : List Char) : List Char :=
  if 3 < (stripWs text).length then
    match tr TrDir.toSesotho text with
    | Except.ok r => r
    | Except.error _ => text
  else text

-- ## QA fallback (lines 192–228)

/-- The QA pipeline's result dict: `answer` and confidence `score`. -/
structure QARes where
  answer : List Char
  score : ℚ

/-- Oracle for the question-answering pipeline (question, context);
`Except.error` models a raised exception. -/
def QAOracle := List Char → List Char → Except Unit QARes

/-- The QA context (lines 199–208): `" ".join` of every entry's English
content (`item.get('en', '')`) across KB, Glossary, Medicines. -/
def buildContext (kb glossary medicines : Collection) : List Char :=
  List.intercalate " ".toList
    ((kb.map fun p => p.2.en.getD []) ++ (glossary.map fun p => p.2.en.getD []) ++
      (medicines.map fun p => p.2.en.getD []))

/-- `smart_qa_fallback(question, lang)` (lines 192–228): absent model means
no answer; translate the question to English for Sesotho requests; accept
the stripped answer only if truthy, confidence strictly above `0.1`, and at
least two words; translate accepted answers back for Sesotho requests. -/
def smart_qa_fallback (qa : Option QAOracle) (tr : TrOracle)
    (kb glossary medicines : Collection) (question : List Char) (lang : Lang) :
    Option (List Char) :=
  match qa with
  | none => none
  | some qaf =>
    match qaf (if lang = Lang.st then translate_to_english tr question else question)
        (buildContext kb glossary medicines) with
    | Except.error _ => none
    | Except.ok res =>
      if !(stripWs res.answer).isEmpty && decide ((1/10 : ℚ) < res.score) &&
          decide (2 ≤ (splitWs (stripWs res.answer)).length) then
        some (if lang = Lang.st then translate_to_sesotho tr (stripWs res.answer)
              else stripWs res.answer)
      else none

-- ## The /chat handler (lines 262–330)

/-- A JSON value bound to the `message`/`lang` fields: a string, or
anything that is not a string (null, number, object, …). -/
inductive JVal where
  | str (s : List Char)
  | nonstr
deriving DecidableEq

/-- The parsed request body; absent fields are `none`. -/
structure ChatReq where
  message : Option JVal := none
  lang : Option JVal := none

/-- All external state and capabilities `chat` reads. -/
structure ChatDeps where
  vocab : List (List Char × VEntry)
  kb : Collection
  glossary : Collection
  medicines : Collection
  qa : Option QAOracle
  tr : TrOracle
  fuzzy : FuzzyOracle

/-- The fixed prompt for invalid/empty messages (line 270). -/
def promptMsg : List Char := "⚠️ Please type a question.".toList

/-- `fallback_responses` (lines 315–318). -/
def fallback_responses : Lang → List Char
  | Lang.en => ("I understand you're asking about health. Could you please rephrase your question or ask about:\n• HIV treatment and ARVs\n• Maternal or child health\n• Nutrition or hygiene\n• Specific medications\n• Disease symptoms or prevention").toList
  | Lang.st => ("Ke utloisisa hore u botsa ka bophelo. Ka kopo, buisa potso kapa u botsise ka:\n• Kalafo ea HIV le li-ARV\n• Bophelo ba bokhachane kapa bana\n• Phepo kapa bohloeki\n• Meriana e itseng\n• Matšoao a malwetse kapa thibelo").toList

/-- The fixed bilingual disclaimer (lines 322–325). -/
def disclaimer : Lang → List Char
  | Lang.en => ("\n\nNote: This is health information, not medical advice. Consult a healthcare professional.").toList
  | Lang.st => ("\n\nTlhokomeliso: Tsena ke tlhahisoleseding ya bophelo, eseng keletso ea bongaka. Buisana le setsebi sa bophelo.").toList

/-- Lines 313–327: replace a falsy reply by the canned fallback, then append
the disclaimer. -/
def finalizeReply (reply : Option (List Char)) (lang : Lang) : List Char :=
  (if truthyL reply then reply else some (fallback_responses lang)).getD [] ++
    disclaimer lang

/-- `lang = data.get('lang','en')` then `lang if lang in ('en','st') else
'en'` (lines 266–267). -/
def resolveLang (v : Option JVal) : Lang :=
  match v.getD (JVal.str "en".toList) with
  | JVal.str s =>
    if s = "en".toList then Lang.en
    else if s = "st".toList then Lang.st
    else Lang.en
  | JVal.nonstr => Lang.en

/-- Lines 287–296: `if typ and key:` resolve the matched key (the three
`elif` branches on `typ` all call `generate_targeted_response` identically). -/
def matchedReply (d : ChatDeps) (text : List Char) (lang : Lang) :
    Option (List Char) :=
  match (advanced_topic_matching d.fuzzy d.vocab text).typ,
      (advanced_topic_matching d.fuzzy d.vocab text).key with
  | some _, some k =>
    if k = "" then none
    else generate_targeted_response d.kb d.glossary d.medicines k
      (advanced_topic_matching d.fuzzy d.vocab text).question_type lang
  | _, _ => none

/-- Lines 299–301: `if not reply and qa_model:` try the QA fallback (which
overwrites `reply`). -/
def replyAfterQA (d : ChatDeps) (text : List Char) (lang : Lang) :
    Option (List Char) :=
  if !truthyL (matchedReply d text lang) && d.qa.isSome then
    smart_qa_fallback d.qa d.tr d.kb d.glossary d.medicines text lang
  else matchedReply d text lang

/-- Lines 303–311: the domain-keyword last resort. -/
def replyAfterLastResort (d : ChatDeps) (text : List Char) (lang : Lang) :
    Option (List Char) :=
  if !truthyL (replyAfterQA d text lang) then
    match lastResortDecision (normChars text) with
    | some (k, qt) => generate_targeted_response d.kb d.glossary d.medicines k qt lang
    | none => replyAfterQA d text lang
  else replyAfterQA d text lang

/-- The request body processing after validation (lines 272–330). -/
def chatBody (d : ChatDeps) (text : List Char) (lang0 : Lang) : List Char :=
  finalizeReply (replyAfterLastResort d text (detectLang lang0 text))
    (detectLang lang0 text)

/-- The `/chat` handler (lines 262–330): extract `message`/`lang` from the
(possibly null) JSON body; a non-string or whitespace-only message
short-circuits with the fixed prompt; otherwise run the full pipeline on
the stripped text. -/
def chat (d : ChatDeps) (req : Option ChatReq) : List Char :=
  match (req.getD {}).message.getD (JVal.str []) with
  | JVal.nonstr => promptMsg
  | JVal.str s =>
    if (stripWs s).length = 0 then promptMsg
    else chatBody d (stripWs s) (resolveLang (req.getD {}).lang)

/-- The language a valid request is ultimately processed in. -/
def chatResolvedLang (req : Option ChatReq) : Lang :=
  match (req.getD {}).message.getD (JVal.str []) with
  | JVal.str s => detectLang (resolveLang (req.getD {}).lang) (stripWs s)
  | JVal.nonstr => resolveLang (req.getD {}).lang

/-- Message validity as checked by the handler (lines 269–270). -/
def validMessage (req : Option ChatReq) : Bool :=
  match (req.getD {}).message.getD (JVal.str []) with
  | JVal.nonstr => false
  | JVal.str s => !((stripWs s).length = 0 : Bool)

-- ### C8, C9, C10

theorem finalizeReply_spec (o : Option (List Char)) (lang : Lang) :
    ∃ r, finalizeReply o lang = r ++ disclaimer lang ∧ r ≠ [] := by
  rw [finalizeReply]
  cases ht : truthyL o
  · refine ⟨fallback_responses lang, by simp, ?_⟩
    cases lang <;> decide
  · cases o with
    | none => rw [truthyL] at ht; exact absurd ht (by simp)
    | some r =>
      refine ⟨r, by simp, ?_⟩
      rw [truthyL] at ht
      simp only [Bool.not_eq_true'] at ht
      exact fun hr => by rw [hr] at ht; exact absurd ht (by simp)

/-- **C8.** For every request with a valid (string, non-whitespace) message
and ANY vocabulary, collections, QA/translator/fuzzy oracles, the handler
returns a non-empty reply with the fixed bilingual disclaimer for the
resolved language appended at the end — no code path yields an error or an
empty response, whichever stage (matched resolution, QA fallback,
domain-keyword last resort, or the canned ultimate fallback) produced the
text. -/
theorem chat_always_replies (d : ChatDeps) (req : Option ChatReq) (s : List Char)
    (hm : (req.getD {}).message.getD (JVal.str []) = JVal.str s)
    (hne : ¬ (stripWs s).length = 0) :
    ∃ r, chat d req = r ++ disclaimer (chatResolvedLang req) ∧ r ≠ [] := by
  have hlang : chatResolvedLang req =
      detectLang (resolveLang (req.getD {}).lang) (stripWs s) := by
    rw [chatResolvedLang, hm]
  have hch : chat d req = chatBody d (stripWs s) (resolveLang (req.getD {}).lang) := by
    rw [chat, hm]
    exact if_neg hne
  rw [hch, chatBody, hlang]
  exact finalizeReply_spec _ _

/-- Witness for C8 with a trivial environment and the message "hello". -/
theorem chat_always_replies_witness :
    ∃ r, chat ⟨[], [], [], [], none, fun _ t => Except.ok t, fun _ _ => none⟩
        (some ⟨some (JVal.str "hello".toList), none⟩) =
      r ++ disclaimer (chatResolvedLang
        (some ⟨some (JVal.str "hello".toList), none⟩)) ∧ r ≠ [] :=
  chat_always_replies ⟨[], [], [], [], none, fun _ t => Except.ok t, fun _ _ => none⟩
    (some ⟨some (JVal.str "hello".toList), none⟩) "hello".toList rfl (by decide)

/-- **C9.** For every request whose message is missing, not a string, empty
or whitespace-only, the handler returns the fixed prompt — for EVERY
vocabulary, collection and oracle, so the cascade can contribute nothing
(it is never consulted) and no disclaimer is appended. -/
theorem invalid_message_short_circuit (d : ChatDeps) (req : Option ChatReq)
    (h : validMessage req = false) : chat d req = promptMsg := by
  rw [chat]
  rw [validMessage] at h
  cases hm : (req.getD {}).message.getD (JVal.str []) with
  | nonstr => rfl
  | str s =>
    rw [hm] at h
    simp only [Bool.not_eq_true'] at h
    exact if_pos (by simpa using h)

/-- Witness for C9: a request with no body at all. -/
theorem invalid_message_short_circuit_witness :
    chat ⟨[("x".toList, (SrcType.kb, "x", (1 : ℚ)))], [], [], [], none,
        fun _ t => Except.ok t, fun _ _ => none⟩ none = promptMsg :=
  invalid_message_short_circuit _ none (by decide)

/-- **C10.** The Sesotho heuristic fires exactly when the normalized text
shares at least one word with the fixed 18-word stop-word set; the set
contains English words such as "me", so the English request "tell me about
hiv" with lang `'en'` is switched to Sesotho; and the flip is
one-directional: a request resolved to `'st'` is never switched. -/
theorem sesotho_heuristic (t : List Char) :
    (is_sesotho t = true ↔ ∃ w ∈ splitWs (normChars t), w ∈ sesotho_words) ∧
    sesotho_words.length = 18 ∧
    ((∃ w ∈ splitWs (normChars t), w ∈ sesotho_words) →
      detectLang Lang.en t = Lang.st) ∧
    detectLang Lang.en "tell me about hiv".toList = Lang.st ∧
    detectLang Lang.st t = Lang.st := by
  have hiff : is_sesotho t = true ↔
      ∃ w ∈ splitWs (normChars t), w ∈ sesotho_words := by
    rw [is_sesotho, decide_eq_true_eq, Nat.one_le_iff_ne_zero, ← Nat.pos_iff_ne_zero,
      Finset.card_pos]
    constructor
    · rintro ⟨w, hw⟩
      rw [Finset.mem_inter, List.mem_toFinset, List.mem_toFinset] at hw
      exact ⟨w, hw.1, hw.2⟩
    · rintro ⟨w, hw1, hw2⟩
      refine ⟨w, ?_⟩
      rw [Finset.mem_inter, List.mem_toFinset, List.mem_toFinset]
      exact ⟨hw1, hw2⟩
  refine ⟨hiff, by decide, ?_, by decide, ?_⟩
  · intro hex
    rw [detectLang, if_pos (by simp [hiff.mpr hex])]
  · rw [detectLang]
    simp

/-- Witness for C10 at the concrete request "tell me about hiv". -/
theorem sesotho_heuristic_witness :
    detectLang Lang.en "tell me about hiv".toList = Lang.st :=
  (sesotho_heuristic "tell me about hiv".toList).2.2.2.1

/-- Witness for the amended C2: on "arv list" the last resort routes to the
examples key, and then so does cascade step 4. -/
theorem domain_last_resort_relation_witness :
    step4Decision "arv list".toList =
      some (SrcType.medicine, "arv_examples", "arv examples".toList,
        QType.examples) :=
  (domain_last_resort_relation "arv list".toList).2.2.1 (by decide)

/-- Witness for the amended C3: a key present in both Facts and Glossary
with truthy Facts content resolves to the Facts content. -/
theorem resolver_precedence_witness :
    generate_targeted_response [("k", ⟨[], some "fact".toList, none⟩)]
      [("k", ⟨[], some "gdef".toList, none⟩)] [] "k" QType.general Lang.en =
      some "fact".toList := by
  have h := (resolver_precedence [("k", ⟨[], some "fact".toList, none⟩)]
    [("k", ⟨[], some "gdef".toList, none⟩)] [] "k" QType.general Lang.en).2
    ⟨[], some "fact".toList, none⟩ (by decide) (by decide)
  exact h
